import Mathlib

/-!
Verification of the differentiable-simulation core of the Honours-Project
repository (`src/diff_sim/traj_opt/policy.py`, `src/diff_sim/simulate.py`,
`src/contexts/meta_context.py`).

The mjx state (`mjx.Data`) is, for everything this code does to it, a pytree:
`jax.tree_util.tree_leaves_with_path` yields a stable sequence of
(path, leaf-array) pairs, and `jax.flatten_util.ravel_pytree` concatenates the
leaves into one flat vector.  We embed it as a list of leaves, each carrying
its attribute path, its numeric contents (rationals stand in for the float64
values; `jax_enable_x64` is on and no floating rounding is modelled), and a
flag recording whether the leaf has an integer/discrete dtype, i.e. whether
its cotangent dtype is `float0`.

The physics step `mjx.step` (composed with the caller's `set_control_fn`) is
an opaque external function; every definition that calls it takes it as an
explicit parameter `stepP : List Leaf → List ℚ → List Leaf`.
-/

/-- One pytree leaf of the mjx state: structural path (the `GetAttrKey.name`
levels), numeric contents, and whether the dtype is integer/discrete (so that
its cotangent has dtype `float0`). -/
structure Leaf where
  path : List String
  vals : List ℚ
  discrete : Bool
deriving DecidableEq, Repr, Inhabited

/-- `jax.flatten_util.ravel_pytree`, value part: concatenate the leaves of the
state in traversal order into one flat vector. -/
def ravel_pytree (dx : List Leaf) : List ℚ :=
  (dx.map Leaf.vals).flatten

/-- The unflatten closure returned by `ravel_pytree(dx_ref)`: split a flat
vector back into leaves following the reference structure `shape` (paths,
sizes and dtypes come from the reference; values from the vector). -/
def unravel_dx (shape : List Leaf) (v : List ℚ) : List Leaf :=
  match shape with
  | [] => []
  | l :: rest =>
      Leaf.mk l.path (v.take l.vals.length) l.discrete
        :: unravel_dx rest (v.drop l.vals.length)

/-- Leaf sizes of a state, in traversal order (the `sizes` of
`build_fd_cache`). -/
def leafSizes (dx : List Leaf) : List ℕ :=
  dx.map (fun l => l.vals.length)

/-- Two states have the same pytree structure: same paths, same leaf sizes,
same dtypes.  Every state produced by `mjx.step` from a state of the
reference shape has the reference shape (jax shapes are static). -/
def ShapeEq (a b : List Leaf) : Prop :=
  a.map (fun l => (l.path, l.vals.length, l.discrete))
    = b.map (fun l => (l.path, l.vals.length, l.discrete))

instance (a b : List Leaf) : Decidable (ShapeEq a b) := by
  unfold ShapeEq
  infer_instance

lemma ravel_pytree_length (dx : List Leaf) :
    (ravel_pytree dx).length = (leafSizes dx).sum := by
  induction dx with
  | nil => rfl
  | cons l rest ih =>
      simp [ravel_pytree, leafSizes] at ih ⊢
      omega

lemma shapeEq_nil {s : List Leaf} (h : ShapeEq s []) : s = [] := by
  cases s with
  | nil => rfl
  | cons a t => simp [ShapeEq] at h

lemma shapeEq_cons {s : List Leaf} {l : Leaf} {rest : List Leaf}
    (h : ShapeEq s (l :: rest)) :
    ∃ a t, s = a :: t ∧ a.path = l.path ∧ a.vals.length = l.vals.length ∧
      a.discrete = l.discrete ∧ ShapeEq t rest := by
  cases s with
  | nil => simp [ShapeEq] at h
  | cons a t =>
      simp only [ShapeEq, List.map_cons, List.cons.injEq, Prod.mk.injEq] at h
      exact ⟨a, t, rfl, h.1.1, h.1.2.1, h.1.2.2, h.2⟩

lemma ravel_unravel (shape : List Leaf) (v : List ℚ)
    (hv : v.length = (leafSizes shape).sum) :
    ravel_pytree (unravel_dx shape v) = v := by
  induction shape generalizing v with
  | nil =>
      simp [leafSizes] at hv
      simp [unravel_dx, ravel_pytree, hv]
  | cons l rest ih =>
      rw [show leafSizes (l :: rest) = l.vals.length :: leafSizes rest from rfl,
        List.sum_cons] at hv
      have hd : (v.drop l.vals.length).length = (leafSizes rest).sum := by
        rw [List.length_drop, hv]
        omega
      simp only [unravel_dx, ravel_pytree, List.map_cons, List.flatten_cons]
      rw [show ((unravel_dx rest (v.drop l.vals.length)).map Leaf.vals).flatten
            = ravel_pytree (unravel_dx rest (v.drop l.vals.length)) from rfl,
          ih _ hd, List.take_append_drop]

lemma unravel_ravel (shape s : List Leaf) (hs : ShapeEq s shape) :
    unravel_dx shape (ravel_pytree s) = s := by
  induction shape generalizing s with
  | nil => simp [shapeEq_nil hs, unravel_dx, ravel_pytree]
  | cons l rest ih =>
      obtain ⟨a, t, rfl, hpath, hlen, hdisc, htail⟩ := shapeEq_cons hs
      have htake : (a.vals ++ ravel_pytree t).take l.vals.length = a.vals := by
        rw [← hlen, List.take_left]
      have hdrop : (a.vals ++ ravel_pytree t).drop l.vals.length = ravel_pytree t := by
        rw [← hlen, List.drop_left]
      simp only [unravel_dx, ravel_pytree, List.map_cons, List.flatten_cons]
      rw [show (t.map Leaf.vals).flatten = ravel_pytree t from rfl, htake, hdrop,
        ih t htail, ← hpath, ← hdisc]

/-- One level of a leaf path has a `name` attribute in `target_fields`
(`any(getattr(level, 'name', None) in target_fields for level in path)`). -/
def name_matches (path : List String) (target_fields : List String) : Bool :=
  path.any (fun s => target_fields.contains s)

/-- The leaf positions whose path matches a requested target field name
(`idx_target_state` in `build_fd_cache`). -/
def idx_target_state (dx_ref : List Leaf) (target_fields : List String) : List ℕ :=
  (List.range dx_ref.length).filter
    (fun i => name_matches (dx_ref.getD i default).path target_fields)

/-- Start of leaf `i` in the flattened state: `indices[i-1]` (or `0`) where
`indices = np.cumsum(sizes)`. -/
def leafOffset (dx_ref : List Leaf) (i : ℕ) : ℕ :=
  ((leafSizes dx_ref).take i).sum

/-- `leaf_index_range(i) = np.arange(start, end)`: the flat positions occupied
by leaf `i`. -/
def leaf_index_range (dx_ref : List Leaf) (i : ℕ) : List ℕ :=
  List.range' (leafOffset dx_ref i) ((leafSizes dx_ref).getD i 0)

/-- `inner_idx_list`: the index ranges of all matched leaves, in order. -/
def inner_idx_list (dx_ref : List Leaf) (target_fields : List String) : List (List ℕ) :=
  (idx_target_state dx_ref target_fields).map (leaf_index_range dx_ref)

/-- `v.at[idx].set(x)` for a list of indices: functional scatter-update. -/
def scatter_set (v : List ℚ) (idx : List ℕ) (x : ℚ) : List ℚ :=
  idx.foldl (fun acc i => acc.set i x) v

/-- The precomputed info for the custom FD-based backward pass
(`FDCache` dataclass).  The `unravel_dx` closure is kept as a function, as in
the source. -/
structure FDCache where
  unravel : List ℚ → List Leaf
  sensitivity_mask : List ℚ
  inner_idx : List ℕ
  dx_size : ℕ
  num_u_dims : ℕ
  eps : ℚ

/-- `build_fd_cache(dx_ref, u_ref, target_fields, eps)`.  Returns `none` when
`inner_idx_list` is empty, because `np.concatenate([])` raises
`ValueError: need at least one array to concatenate`; otherwise the cache. -/
def build_fd_cache (dx_ref : List Leaf) (u_ref : List ℚ)
    (target_fields : List String) (eps : ℚ) : Option FDCache :=
  let dx_array := ravel_pytree dx_ref
  let dx_size := dx_array.length
  let num_u_dims := u_ref.length
  match inner_idx_list dx_ref target_fields with
  | [] => none
  | _ :: _ =>
      let inner_idx := (inner_idx_list dx_ref target_fields).flatten
      let sensitivity_mask := scatter_set (List.replicate dx_size 0) inner_idx 1
      some (FDCache.mk (unravel_dx dx_ref) sensitivity_mask inner_idx dx_size num_u_dims eps)

/-- Claim C4: the state flatten/unflatten pair is a bijection.  For every flat
vector `v` of the right dimension, `flatten (unflatten v) = v`; and for every
state `s` of the reference shape (any state produced by `mjx.make_data` or by
a step has it), `unflatten (flatten s)` reproduces every field of `s`
exactly. -/
theorem flatten_unflatten_bijection (shape s : List Leaf) (v : List ℚ)
    (hv : v.length = (ravel_pytree shape).length)
    (hs : ShapeEq s shape) :
    ravel_pytree (unravel_dx shape v) = v ∧ unravel_dx shape (ravel_pytree s) = s := by
  refine ⟨ravel_unravel shape v ?_, unravel_ravel shape s hs⟩
  rw [hv, ravel_pytree_length]

/-- Witness for C4 at a concrete two-leaf state. -/
theorem flatten_unflatten_bijection_witness :
    ravel_pytree (unravel_dx
        [Leaf.mk ["qpos"] [1, 2] false, Leaf.mk ["qvel"] [3] false] [7, 8, 9]) = [7, 8, 9]
    ∧ unravel_dx [Leaf.mk ["qpos"] [1, 2] false, Leaf.mk ["qvel"] [3] false]
        (ravel_pytree [Leaf.mk ["qpos"] [4, 5] false, Leaf.mk ["qvel"] [6] false])
      = [Leaf.mk ["qpos"] [4, 5] false, Leaf.mk ["qvel"] [6] false] :=
  flatten_unflatten_bijection
    [Leaf.mk ["qpos"] [1, 2] false, Leaf.mk ["qvel"] [3] false]
    [Leaf.mk ["qpos"] [4, 5] false, Leaf.mk ["qvel"] [6] false]
    [7, 8, 9] (by decide) (by decide)

lemma list_set_getD_self {α : Type} (l : List α) (i : ℕ) (x d : α) (h : i < l.length) :
    (l.set i x).getD i d = x := by
  rw [List.getD_eq_getElem _ _ (by simpa using h)]
  simp [List.getElem_set_self]

lemma list_set_getD_ne {α : Type} (l : List α) (i j : ℕ) (x d : α) (h : i ≠ j) :
    (l.set i x).getD j d = l.getD j d := by
  by_cases hj : j < l.length
  · rw [List.getD_eq_getElem _ _ (by simpa using hj), List.getD_eq_getElem _ _ hj]
    exact List.getElem_set_ne h _
  · rw [List.getD_eq_default _ _ (by simpa using hj), List.getD_eq_default _ _ (by simpa using hj)]

lemma scatter_set_length (v : List ℚ) (idx : List ℕ) (x : ℚ) :
    (scatter_set v idx x).length = v.length := by
  induction idx generalizing v with
  | nil => rfl
  | cons i rest ih => simp [scatter_set, List.foldl_cons] at ih ⊢; rw [ih, List.length_set]

lemma scatter_set_getD (v : List ℚ) (idx : List ℕ) (x : ℚ) (k : ℕ) (d : ℚ) :
    (scatter_set v idx x).getD k d
      = if k ∈ idx ∧ k < v.length then x else v.getD k d := by
  induction idx generalizing v with
  | nil => simp [scatter_set]
  | cons i rest ih =>
      show (scatter_set (v.set i x) rest x).getD k d = _
      rw [ih (v.set i x), List.length_set]
      by_cases hk : k < v.length
      · by_cases hmem : k ∈ rest
        · simp [hmem, hk]
        · by_cases hik : i = k
          · subst hik
            simp [hmem, hk, list_set_getD_self v i x d hk]
          · simp only [List.mem_cons, hmem, or_false, hk, and_true]
            rw [list_set_getD_ne v i k x d hik]
            by_cases hki : k = i
            · exact absurd hki.symm hik
            · simp [hki]
      · simp only [hk, and_false, if_false]
        rw [List.getD_eq_default _ _ (by simp; omega),
          List.getD_eq_default _ _ (by omega)]

lemma sum_take_mono (l : List ℕ) {m n : ℕ} (h : m ≤ n) :
    (l.take m).sum ≤ (l.take n).sum := by
  have hsplit : l.take n = (l.take n).take m ++ (l.take n).drop m :=
    (List.take_append_drop m (l.take n)).symm
  have htt : (l.take n).take m = l.take m := by
    rw [List.take_take, min_eq_left h]
  calc (l.take m).sum ≤ (l.take m).sum + ((l.take n).drop m).sum := Nat.le_add_right _ _
    _ = (l.take n).sum := by rw [← htt]; rw [← List.sum_append, ← hsplit]

lemma leafOffset_succ (dx_ref : List Leaf) (i : ℕ) (hi : i < dx_ref.length) :
    leafOffset dx_ref (i + 1) = leafOffset dx_ref i + (leafSizes dx_ref).getD i 0 := by
  have hi' : i < (leafSizes dx_ref).length := by simpa [leafSizes] using hi
  unfold leafOffset
  rw [List.take_succ, List.sum_append, List.getD_eq_getElem _ _ hi',
    List.getElem?_eq_getElem hi']
  simp

lemma leafOffset_add_size_le (dx_ref : List Leaf) {i j : ℕ} (hij : i < j)
    (hi : i < dx_ref.length) :
    leafOffset dx_ref i + (leafSizes dx_ref).getD i 0 ≤ leafOffset dx_ref j := by
  rw [← leafOffset_succ dx_ref i hi]
  exact sum_take_mono _ hij

lemma leafOffset_add_size_le_total (dx_ref : List Leaf) {i : ℕ} (hi : i < dx_ref.length) :
    leafOffset dx_ref i + (leafSizes dx_ref).getD i 0 ≤ (leafSizes dx_ref).sum := by
  rw [← leafOffset_succ dx_ref i hi]
  have := sum_take_mono (leafSizes dx_ref)
    (show i + 1 ≤ (leafSizes dx_ref).length by simpa [leafSizes] using hi)
  simpa [leafOffset, List.take_length] using this

lemma mem_idx_target_state {dx_ref : List Leaf} {tf : List String} {i : ℕ} :
    i ∈ idx_target_state dx_ref tf ↔
      i < dx_ref.length ∧ name_matches (dx_ref.getD i default).path tf = true := by
  simp [idx_target_state, List.mem_filter, List.mem_range]

lemma mem_leaf_index_range {dx_ref : List Leaf} {i k : ℕ} :
    k ∈ leaf_index_range dx_ref i ↔
      leafOffset dx_ref i ≤ k ∧ k < leafOffset dx_ref i + (leafSizes dx_ref).getD i 0 := by
  simp [leaf_index_range, List.mem_range'_1]

lemma inner_idx_mem {dx_ref : List Leaf} {tf : List String} {k : ℕ} :
    k ∈ (inner_idx_list dx_ref tf).flatten ↔
      ∃ i, i ∈ idx_target_state dx_ref tf ∧ k ∈ leaf_index_range dx_ref i := by
  simp only [inner_idx_list, List.mem_flatten, List.mem_map]
  constructor
  · rintro ⟨l, ⟨i, hi, rfl⟩, hk⟩
    exact ⟨i, hi, hk⟩
  · rintro ⟨i, hi, hk⟩
    exact ⟨leaf_index_range dx_ref i, ⟨i, hi, rfl⟩, hk⟩

lemma inner_idx_bound {dx_ref : List Leaf} {tf : List String} {k : ℕ}
    (hk : k ∈ (inner_idx_list dx_ref tf).flatten) :
    k < (leafSizes dx_ref).sum := by
  obtain ⟨i, hi, hr⟩ := inner_idx_mem.mp hk
  have hi' := (mem_idx_target_state.mp hi).1
  have := (mem_leaf_index_range.mp hr).2
  exact lt_of_lt_of_le this (leafOffset_add_size_le_total dx_ref hi')

lemma inner_idx_nodup (dx_ref : List Leaf) (tf : List String) :
    ((inner_idx_list dx_ref tf).flatten).Nodup := by
  rw [List.nodup_flatten]
  constructor
  · rintro l hl
    simp only [inner_idx_list, List.mem_map] at hl
    obtain ⟨i, _, rfl⟩ := hl
    exact List.nodup_range' _ _
  · rw [inner_idx_list, List.pairwise_map]
    have hlt : (idx_target_state dx_ref tf).Pairwise (· < ·) :=
      List.Pairwise.sublist (List.filter_sublist _) (List.pairwise_lt_range _)
    refine hlt.imp_of_mem ?_
    intro a b ha _ hab
    have haL := (mem_idx_target_state.mp ha).1
    intro x hxa hxb
    have h1 := (mem_leaf_index_range.mp hxa).2
    have h2 := (mem_leaf_index_range.mp hxb).1
    have := leafOffset_add_size_le dx_ref hab haL
    omega

lemma getD_replicate_zero (n k : ℕ) : (List.replicate n (0 : ℚ)).getD k 0 = 0 := by
  by_cases h : k < n
  · rw [List.getD_eq_getElem _ _ (by simpa using h)]
    simp
  · rw [List.getD_eq_default _ _ (by simpa using h)]

lemma sum_indicator (l : List ℕ) (p : ℕ → Prop) [DecidablePred p] :
    (l.map (fun k => if p k then (1 : ℚ) else 0)).sum
      = ((l.filter (fun k => decide (p k))).length : ℚ) := by
  induction l with
  | nil => simp
  | cons a t ih =>
      by_cases h : p a
      · simp only [List.map_cons, List.sum_cons, if_pos h, List.filter_cons,
          decide_eq_true h, if_true, List.length_cons, ih]
        push_cast
        ring
      · simp [h, ih]

lemma mask_eq_indicator (n : ℕ) (idx : List ℕ) (hb : ∀ j ∈ idx, j < n) :
    scatter_set (List.replicate n 0) idx 1
      = (List.range n).map (fun k => if k ∈ idx then (1 : ℚ) else 0) := by
  apply List.ext_getElem
  · rw [scatter_set_length]
    simp
  · intro k h1 h2
    have hn : k < n := by
      rw [scatter_set_length, List.length_replicate] at h1
      exact h1
    rw [← List.getD_eq_getElem _ 0 h1, scatter_set_getD]
    simp only [List.length_replicate, hn, and_true, getD_replicate_zero]
    simp [List.getElem_map, List.getElem_range]

lemma filter_mem_length (n : ℕ) (idx : List ℕ) (hnd : idx.Nodup) (hb : ∀ j ∈ idx, j < n) :
    ((List.range n).filter (fun k => decide (k ∈ idx))).length = idx.length := by
  have hnd' : ((List.range n).filter (fun k => decide (k ∈ idx))).Nodup :=
    (List.nodup_range n).filter _
  have hperm : ((List.range n).filter (fun k => decide (k ∈ idx))).Perm idx := by
    rw [List.perm_ext_iff_of_nodup hnd' hnd]
    intro a
    simp only [List.mem_filter, List.mem_range, decide_eq_true_eq]
    exact ⟨fun h => h.2, fun h => ⟨hb a h, h⟩⟩
  exact hperm.length_eq

lemma build_fd_cache_some {dx_ref : List Leaf} {u_ref : List ℚ} {tf : List String}
    {eps : ℚ} {cache : FDCache}
    (h : build_fd_cache dx_ref u_ref tf eps = some cache) :
    cache = FDCache.mk (unravel_dx dx_ref)
      (scatter_set (List.replicate (ravel_pytree dx_ref).length 0)
        ((inner_idx_list dx_ref tf).flatten) 1)
      ((inner_idx_list dx_ref tf).flatten)
      (ravel_pytree dx_ref).length u_ref.length eps := by
  unfold build_fd_cache at h
  split at h
  · exact absurd h (by simp)
  · exact (Option.some.inj h).symm

/-- Claim C5: for every cache built by `build_fd_cache`,
`sum(sensitivity_mask) == len(inner_idx)`; the mask is a 0/1 vector of the
same length as the flattened state, `1` exactly at the positions listed in
`inner_idx`; and every index in `inner_idx` falls within a leaf whose
structural path matches a requested target field name. -/
theorem sensitivity_mask_coverage (dx_ref : List Leaf) (u_ref : List ℚ)
    (tf : List String) (eps : ℚ) (cache : FDCache)
    (hcache : build_fd_cache dx_ref u_ref tf eps = some cache) :
    cache.sensitivity_mask.length = cache.dx_size
    ∧ cache.sensitivity_mask.sum = (cache.inner_idx.length : ℚ)
    ∧ (∀ k, k < cache.dx_size →
        cache.sensitivity_mask.getD k 0 = if k ∈ cache.inner_idx then 1 else 0)
    ∧ (∀ k ∈ cache.inner_idx, ∃ i, i < dx_ref.length
        ∧ name_matches (dx_ref.getD i default).path tf = true
        ∧ leafOffset dx_ref i ≤ k
        ∧ k < leafOffset dx_ref i + (leafSizes dx_ref).getD i 0) := by
  have hc := build_fd_cache_some hcache
  subst hc
  have hb : ∀ j ∈ (inner_idx_list dx_ref tf).flatten, j < (ravel_pytree dx_ref).length := by
    intro j hj
    rw [ravel_pytree_length]
    exact inner_idx_bound hj
  refine ⟨?_, ?_, ?_, ?_⟩
  · rw [scatter_set_length]
    simp
  · dsimp only
    rw [mask_eq_indicator _ _ hb, sum_indicator,
      filter_mem_length _ _ (inner_idx_nodup dx_ref tf) hb]
  · intro k hk
    rw [scatter_set_getD]
    simp only [List.length_replicate]
    by_cases hmem : k ∈ (inner_idx_list dx_ref tf).flatten
    · simp [hmem, hk]
    · simp [hmem, getD_replicate_zero]
  · intro k hk
    obtain ⟨i, hi, hr⟩ := inner_idx_mem.mp hk
    obtain ⟨hiL, hmatch⟩ := mem_idx_target_state.mp hi
    obtain ⟨h1, h2⟩ := mem_leaf_index_range.mp hr
    exact ⟨i, hiL, hmatch, h1, h2⟩

/-- Concrete three-leaf reference state for witnesses: `qpos` (2 entries),
a discrete bookkeeping leaf (1 entry), `ctrl` (1 entry). -/
def exRef : List Leaf :=
  [Leaf.mk ["qpos"] [1, 2] false, Leaf.mk ["step_count"] [3] true,
    Leaf.mk ["ctrl"] [4] false]

/-- The cache `build_fd_cache` produces for `exRef` with the default target
fields. -/
def exCache : FDCache :=
  FDCache.mk (unravel_dx exRef) [1, 1, 0, 1] [0, 1, 3] 4 1 (1 : ℚ)

/-- Witness for C5 at `exRef`. -/
theorem sensitivity_mask_coverage_witness :
    build_fd_cache exRef [9] ["qpos", "qvel", "ctrl"] 1 = some exCache
    ∧ exCache.sensitivity_mask.sum = (exCache.inner_idx.length : ℚ)
    ∧ exCache.sensitivity_mask.getD 2 0 = if 2 ∈ exCache.inner_idx then 1 else 0 := by
  have h := sensitivity_mask_coverage exRef [9] ["qpos", "qvel", "ctrl"] 1 exCache rfl
  exact ⟨rfl, h.2.1, h.2.2.1 2 (by norm_num [exCache])⟩

/-- Counterexample for C7: when every requested target field name is
unmatched, `idx_target_state` is empty, so `inner_idx_list` is empty and
`np.concatenate(inner_idx_list, axis=0)` raises
`ValueError: need at least one array to concatenate` — the build does not
succeed, contradicting the claim's parenthetical "including the case where
every requested name is unmatched". -/
theorem build_fd_cache_all_unmatched_raises :
    build_fd_cache exRef [9] ["nonexistent"] 1 = none := by rfl

lemma name_matches_cons_of_not_mem (path : List String) (bad : String)
    (tf : List String) (hbad : bad ∉ path) :
    name_matches path (bad :: tf) = name_matches path tf := by
  induction path with
  | nil => rfl
  | cons s rest ih =>
      have hs : s ≠ bad := fun h => hbad (h ▸ List.mem_cons_self s rest)
      have hrest : bad ∉ rest := fun h => hbad (List.mem_cons_of_mem _ h)
      simp only [name_matches, List.any_cons] at ih ⊢
      rw [ih hrest]
      simp only [List.contains_cons]
      have : (s == bad) = false := by
        simp [hs]
      rw [this]
      simp

/-- Amended C7: a requested target field name that matches no leaf of the
reference state contributes nothing — adding it to the target set leaves the
built cache (and hence `inner_idx`) unchanged, and the build succeeds exactly
when it succeeded without the name.  (The original claim fails only in the
case where every requested name is unmatched: then the list of index ranges
is empty and `np.concatenate` raises, see the counterexample.) -/
theorem build_fd_cache_unmatched_ignored (dx_ref : List Leaf) (u_ref : List ℚ)
    (tf : List String) (eps : ℚ) (bad : String)
    (hbad : ∀ l ∈ dx_ref, bad ∉ l.path) :
    build_fd_cache dx_ref u_ref (bad :: tf) eps = build_fd_cache dx_ref u_ref tf eps := by
  have hmatch : ∀ i, name_matches (dx_ref.getD i default).path (bad :: tf)
      = name_matches (dx_ref.getD i default).path tf := by
    intro i
    by_cases hi : i < dx_ref.length
    · refine name_matches_cons_of_not_mem _ _ _ (hbad _ ?_)
      rw [List.getD_eq_getElem _ _ hi]
      exact List.getElem_mem hi
    · rw [List.getD_eq_default _ _ (by omega)]
      rfl
  have hidx : idx_target_state dx_ref (bad :: tf) = idx_target_state dx_ref tf := by
    unfold idx_target_state
    exact List.filter_congr (fun i _ => by rw [hmatch i])
  unfold build_fd_cache inner_idx_list
  rw [hidx]

/-- Witness for the amended C7: adding the unmatched name "qfrc" to the
target set changes nothing. -/
theorem build_fd_cache_unmatched_ignored_witness :
    build_fd_cache exRef [9] ["qfrc", "qpos", "qvel", "ctrl"] 1
      = build_fd_cache exRef [9] ["qpos", "qvel", "ctrl"] 1 :=
  build_fd_cache_unmatched_ignored exRef [9] ["qpos", "qvel", "ctrl"] 1 "qfrc"
    (by decide)

/-! ### The FD-based custom backward pass of `make_step_fn` -/

/-- Pointwise vector addition (`jnp` broadcasting of two equal-shape arrays). -/
def vadd (a b : List ℚ) : List ℚ := List.zipWith (· + ·) a b

/-- Pointwise vector subtraction. -/
def vsub (a b : List ℚ) : List ℚ := List.zipWith (· - ·) a b

/-- Pointwise vector product (used for `sensitivity_mask * ...`). -/
def vmul (a b : List ℚ) : List ℚ := List.zipWith (· * ·) a b

/-- Division of a vector by a scalar. -/
def vdiv (a : List ℚ) (c : ℚ) : List ℚ := a.map (· / c)

/-- `jnp.dot` of two equal-length vectors. -/
def dotL (a b : List ℚ) : ℚ := (List.zipWith (· * ·) a b).sum

/-- Matrix–vector product `rows @ v` for a matrix given as its list of rows. -/
def matVec (rows : List (List ℚ)) (v : List ℚ) : List ℚ :=
  rows.map (fun r => dotL r v)

/-- `map_g_to_dinput`: convert `float0` leaves in the upstream gradient `g`
to zeros (`jnp.zeros_like(d_leaf)`); all other leaves pass through. -/
def map_g_to_dinput (diff_tree grad_tree : List Leaf) : List Leaf :=
  List.zipWith
    (fun d_leaf g_leaf =>
      if g_leaf.discrete then Leaf.mk d_leaf.path (List.replicate d_leaf.vals.length 0) d_leaf.discrete
      else g_leaf)
    diff_tree grad_tree

/-- `fdu_plus(i)`: one forward-difference row of the control-Jacobian.
`e = jnp.zeros_like(u).at[i].set(eps)`; rerun the step from the same
`(dx_in, u_in + e)`; flatten; subtract the cached `dx_out_array`; mask and
divide by `eps`. -/
def fdu_plus (stepP : List Leaf → List ℚ → List Leaf) (cache : FDCache)
    (dx_in : List Leaf) (u_in : List ℚ) (dx_out_array : List ℚ) (i : ℕ) : List ℚ :=
  let e := scatter_set (List.replicate u_in.length 0) [i] cache.eps
  let u_in_eps := vadd u_in e
  let dx_perturbed := stepP dx_in u_in_eps
  vdiv (vmul cache.sensitivity_mask (vsub (ravel_pytree dx_perturbed) dx_out_array)) cache.eps

/-- `fdx_for_index(idx)`: one forward-difference row of the state-Jacobian.
Perturb flat coordinate `idx` of the input state by `+eps`, unflatten, rerun
the step with the unperturbed control, flatten, difference, mask, divide. -/
def fdx_for_index (stepP : List Leaf → List ℚ → List Leaf) (cache : FDCache)
    (dx_array : List ℚ) (u_in : List ℚ) (dx_out_array : List ℚ) (idx : ℕ) : List ℚ :=
  let perturbed := scatter_set (List.replicate dx_array.length 0) [idx] cache.eps
  let dx_in_perturbed := cache.unravel (vadd dx_array perturbed)
  let dx_perturbed := stepP dx_in_perturbed u_in
  vdiv (vmul cache.sensitivity_mask (vsub (ravel_pytree dx_perturbed) dx_out_array)) cache.eps

/-- `scatter_rows(subset_rows, subset_indices, full_shape)`: write the
computed state-Jacobian rows into a zero `(dx_dim, dx_dim)` matrix at the
`inner_idx` row positions. -/
def scatter_rows (subset_rows : List (List ℚ)) (subset_indices : List ℕ)
    (dx_dim : ℕ) : List (List ℚ) :=
  (subset_indices.zip subset_rows).foldl (fun base p => base.set p.1 p.2)
    (List.replicate dx_dim (List.replicate dx_dim 0))

/-- The scattered full state-Jacobian `Jx_array` of `step_fn_bwd`. -/
def Jx_full (stepP : List Leaf → List ℚ → List Leaf) (cache : FDCache)
    (dx_array u_in dx_out_array : List ℚ) : List (List ℚ) :=
  scatter_rows (cache.inner_idx.map (fdx_for_index stepP cache dx_array u_in dx_out_array))
    cache.inner_idx dx_array.length

/-- `step_fn_bwd(res, g)`: the FD-based backward pass.  Returns
`(d_x, d_u)`.  `stepP` is the forward `step_fn` (set control, `mjx.step`). -/
def step_fn_bwd (stepP : List Leaf → List ℚ → List Leaf) (cache : FDCache)
    (res : List Leaf × List ℚ × List Leaf) (g : List Leaf) : List Leaf × List ℚ :=
  let dx_in := res.1
  let u_in := res.2.1
  let dx_out := res.2.2
  let mapped_g := map_g_to_dinput dx_in g
  let g_array := ravel_pytree mapped_g
  let dx_array := ravel_pytree dx_in
  let dx_out_array := ravel_pytree dx_out
  let Ju_array := (List.range cache.num_u_dims).map
    (fdu_plus stepP cache dx_in u_in dx_out_array)
  let Jx_array := Jx_full stepP cache dx_array u_in dx_out_array
  let d_u_flat := matVec Ju_array g_array
  let d_x_flat := matVec Jx_array g_array
  (cache.unravel d_x_flat, d_u_flat)

/-- `step_fn_fwd(dx, u)`: the forward rule of the custom vjp — one plain step
plus the residuals `(dx, u, dx_next)`. -/
def step_fn_fwd (stepP : List Leaf → List ℚ → List Leaf)
    (dx : List Leaf) (u : List ℚ) : List Leaf × (List Leaf × List ℚ × List Leaf) :=
  (stepP dx u, (dx, u, stepP dx u))

/-- The specification's description of one control-Jacobian row: perturb only
control coordinate `i` by `+epsilon` (leaving every other coordinate alone),
re-run the forward step from the same `(state, control)`, flatten, subtract
the unperturbed flattened result, mask by `sensitivity_mask`, divide by
`epsilon`. -/
def spec_control_jacobian_row (stepP : List Leaf → List ℚ → List Leaf)
    (mask : List ℚ) (eps : ℚ) (dx : List Leaf) (u : List ℚ) (i : ℕ) : List ℚ :=
  vdiv (vmul mask (vsub (ravel_pytree (stepP dx (u.set i (u.getD i 0 + eps))))
    (ravel_pytree (stepP dx u)))) eps

lemma vadd_replicate_zero (u : List ℚ) : vadd u (List.replicate u.length 0) = u := by
  induction u with
  | nil => rfl
  | cons a t ih => simp only [vadd, List.length_cons, List.replicate_succ,
      List.zipWith_cons_cons, add_zero] at ih ⊢; rw [ih]

lemma vadd_single_perturbation (u : List ℚ) (i : ℕ) (eps : ℚ) :
    vadd u (scatter_set (List.replicate u.length 0) [i] eps)
      = u.set i (u.getD i 0 + eps) := by
  show vadd u ((List.replicate u.length 0).set i eps) = _
  induction u generalizing i with
  | nil => rfl
  | cons a t ih =>
      cases i with
      | zero =>
          simp only [List.length_cons, List.replicate_succ, List.set_cons_zero, vadd,
            List.zipWith_cons_cons, List.getD_cons_zero]
          rw [show List.zipWith (· + ·) t (List.replicate t.length 0) = vadd t _ from rfl,
            vadd_replicate_zero]
      | succ j =>
          simp only [List.length_cons, List.replicate_succ, List.set_cons_succ, vadd,
            List.zipWith_cons_cons, add_zero, List.getD_cons_succ]
          rw [show List.zipWith (· + ·) t ((List.replicate t.length 0).set j eps)
              = vadd t ((List.replicate t.length 0).set j eps) from rfl, ih]

lemma map_g_to_dinput_id (dx g : List Leaf) (hlen : g.length = dx.length)
    (hg : ∀ l ∈ g, l.discrete = false) :
    map_g_to_dinput dx g = g := by
  induction dx generalizing g with
  | nil => cases g with
    | nil => rfl
    | cons a t => simp at hlen
  | cons d dt ih =>
      cases g with
      | nil => rfl
      | cons a t =>
          simp only [List.length_cons, Nat.succ.injEq] at hlen
          have ha : a.discrete = false := hg a (List.mem_cons_self a t)
          simp only [map_g_to_dinput, List.zipWith_cons_cons, ha, Bool.false_eq_true,
            if_false]
          rw [show List.zipWith _ dt t = map_g_to_dinput dt t from rfl,
            ih t hlen (fun l hl => hg l (List.mem_cons_of_mem _ hl))]

/-- Claim C1: in the FD backward pass, for every control dimension `i` the
`i`-th row of the control-Jacobian equals
`sensitivity_mask * (flatten (step (state, control + eps*e_i)) - flatten (step (state, control))) / eps`
— a forward-difference estimate perturbing only coordinate `i` by `+epsilon`
from the same `(state, control)` — and the returned gradient with respect to
the control is this Jacobian matrix multiplied by the flattened upstream
gradient `g`.  (The hypotheses say that the residual `dx_out` is the
unperturbed forward result, and that no leaf of `g` is `float0`, so the
`float0` fixup leaves `g` unchanged.) -/
theorem fd_control_gradient (stepP : List Leaf → List ℚ → List Leaf) (cache : FDCache)
    (dx_in dx_out : List Leaf) (u_in : List ℚ) (g : List Leaf)
    (hout : dx_out = stepP dx_in u_in)
    (hg : ∀ l ∈ g, l.discrete = false)
    (hglen : g.length = dx_in.length) :
    (∀ i, fdu_plus stepP cache dx_in u_in (ravel_pytree dx_out) i
        = spec_control_jacobian_row stepP cache.sensitivity_mask cache.eps dx_in u_in i)
    ∧ (step_fn_bwd stepP cache (dx_in, u_in, dx_out) g).2
        = matVec ((List.range cache.num_u_dims).map
            (spec_control_jacobian_row stepP cache.sensitivity_mask cache.eps dx_in u_in))
          (ravel_pytree g) := by
  have hrow : ∀ i, fdu_plus stepP cache dx_in u_in (ravel_pytree dx_out) i
      = spec_control_jacobian_row stepP cache.sensitivity_mask cache.eps dx_in u_in i := by
    intro i
    unfold fdu_plus spec_control_jacobian_row
    dsimp only
    rw [hout, vadd_single_perturbation]
  refine ⟨hrow, ?_⟩
  show matVec ((List.range cache.num_u_dims).map
      (fdu_plus stepP cache dx_in u_in (ravel_pytree dx_out)))
      (ravel_pytree (map_g_to_dinput dx_in g)) = _
  rw [map_g_to_dinput_id dx_in g hglen hg, funext hrow]

/-- Upstream gradient with no `float0` leaves, for witnesses. -/
def exG : List Leaf :=
  [Leaf.mk ["qpos"] [1, 1] false, Leaf.mk ["step_count"] [1] false,
    Leaf.mk ["ctrl"] [1] false]

/-- A concrete forward step function (stands in for
`mjx.step ∘ set_control_fn`), for witnesses. -/
def exStepFn (dx : List Leaf) (u : List ℚ) : List Leaf :=
  [Leaf.mk ["qpos"] [(ravel_pytree dx).sum + 2 * u.getD 0 0, u.getD 0 0] false,
    Leaf.mk ["step_count"] [3] true,
    Leaf.mk ["ctrl"] [u.getD 0 0] false]

/-- Witness for C1 at a concrete step function, cache, state and control. -/
theorem fd_control_gradient_witness :
    (step_fn_bwd exStepFn exCache (exRef, [5], exStepFn exRef [5]) exG).2
      = matVec ((List.range exCache.num_u_dims).map
          (spec_control_jacobian_row exStepFn exCache.sensitivity_mask exCache.eps exRef [5]))
        (ravel_pytree exG) :=
  (fd_control_gradient exStepFn exCache exRef (exStepFn exRef [5]) [5] exG rfl
    (by decide) (by decide)).2

lemma dotL_replicate_zero (n : ℕ) (v : List ℚ) : dotL (List.replicate n 0) v = 0 := by
  induction n generalizing v with
  | zero => simp [dotL]
  | succ m ih =>
      cases v with
      | nil => simp [dotL]
      | cons a t =>
          simp only [dotL, List.replicate_succ, List.zipWith_cons_cons, List.sum_cons,
            zero_mul, zero_add]
          exact ih t

lemma foldl_set_length {α : Type} (ps : List (ℕ × α)) (b : List α) :
    (ps.foldl (fun acc p => acc.set p.1 p.2) b).length = b.length := by
  induction ps generalizing b with
  | nil => rfl
  | cons p rest ih => rw [List.foldl_cons, ih, List.length_set]

lemma foldl_set_not_mem {α : Type} (ps : List (ℕ × α)) (b : List α) (k : ℕ) (d : α)
    (h : ∀ p ∈ ps, p.1 ≠ k) :
    (ps.foldl (fun acc p => acc.set p.1 p.2) b).getD k d = b.getD k d := by
  induction ps generalizing b with
  | nil => rfl
  | cons p rest ih =>
      rw [List.foldl_cons, ih _ (fun q hq => h q (List.mem_cons_of_mem _ hq)),
        list_set_getD_ne _ _ _ _ _ (h p (List.mem_cons_self p rest))]

lemma scatter_rows_getD_mem (f : ℕ → List ℚ) (idx : List ℕ) (base : List (List ℚ))
    (hnd : idx.Nodup) (k : ℕ) (hk : k ∈ idx) (hlt : k < base.length) :
    ((idx.zip (idx.map f)).foldl (fun b p => b.set p.1 p.2) base).getD k [] = f k := by
  induction idx generalizing base with
  | nil => cases hk
  | cons i rest ih =>
      simp only [List.map_cons, List.zip_cons_cons, List.foldl_cons]
      rcases List.mem_cons.mp hk with hki | hkrest
      · subst hki
        have hnotin : k ∉ rest := (List.nodup_cons.mp hnd).1
        rw [foldl_set_not_mem _ _ k []
            (fun q hq => fun hqk => hnotin (hqk ▸ (List.of_mem_zip hq).1)),
          list_set_getD_self _ _ _ _ hlt]
      · exact ih (base.set i (f i)) (List.nodup_cons.mp hnd).2 hkrest
          (by rw [List.length_set]; exact hlt)

lemma scatter_rows_getD_not_mem (rows : List (List ℚ)) (idx : List ℕ) (dim k : ℕ)
    (hk : k ∉ idx) :
    (scatter_rows rows idx dim).getD k []
      = (List.replicate dim (List.replicate dim 0)).getD k [] := by
  unfold scatter_rows
  exact foldl_set_not_mem _ _ k []
    (fun q hq => fun hqk => hk (hqk ▸ (List.of_mem_zip hq).1))

lemma getD_replicate_row (dim k : ℕ) (hk : k < dim) :
    (List.replicate dim (List.replicate dim (0 : ℚ))).getD k [] = List.replicate dim 0 := by
  rw [List.getD_eq_getElem _ _ (by simpa using hk)]
  simp

lemma matVec_getD (rows : List (List ℚ)) (v : List ℚ) (k : ℕ) (hk : k < rows.length) :
    (matVec rows v).getD k 0 = dotL (rows.getD k []) v := by
  unfold matVec
  rw [List.getD_eq_getElem _ _ (by simpa using hk), List.getElem_map,
    List.getD_eq_getElem _ _ hk]

lemma shapeEq_sizes {a b : List Leaf} (h : ShapeEq a b) : leafSizes a = leafSizes b := by
  have := congrArg (List.map (fun t : List String × ℕ × Bool => t.2.1)) h
  simpa [List.map_map, leafSizes, Function.comp] using this

lemma matVec_length (rows : List (List ℚ)) (v : List ℚ) :
    (matVec rows v).length = rows.length := by
  unfold matVec
  rw [List.length_map]

lemma Jx_full_length (stepP : List Leaf → List ℚ → List Leaf) (cache : FDCache)
    (dx_array u_in out : List ℚ) :
    (Jx_full stepP cache dx_array u_in out).length = dx_array.length := by
  unfold Jx_full scatter_rows
  rw [foldl_set_length, List.length_replicate]

/-- Claim C2: in the FD backward pass, state perturbations are performed only
for the flat indices in `inner_idx` (`Jx_rows = vmap(fdx_for_index)(inner_idx)`);
the resulting rows are scattered into a full `(dim, dim)` matrix exactly at
the `inner_idx` row positions, every other row being exactly zero; and
consequently the returned gradient with respect to the input state is exactly
zero at every flat coordinate outside `inner_idx`. -/
theorem fd_state_gradient_inner_only (stepP : List Leaf → List ℚ → List Leaf)
    (dx_ref : List Leaf) (u_ref : List ℚ) (tf : List String) (eps : ℚ)
    (cache : FDCache) (dx_in dx_out : List Leaf) (u_in : List ℚ) (g : List Leaf)
    (hcache : build_fd_cache dx_ref u_ref tf eps = some cache)
    (hshape : ShapeEq dx_in dx_ref) :
    (∀ k, k < cache.dx_size → k ∉ cache.inner_idx →
      (Jx_full stepP cache (ravel_pytree dx_in) u_in (ravel_pytree dx_out)).getD k []
        = List.replicate cache.dx_size 0)
    ∧ (∀ k ∈ cache.inner_idx,
      (Jx_full stepP cache (ravel_pytree dx_in) u_in (ravel_pytree dx_out)).getD k []
        = fdx_for_index stepP cache (ravel_pytree dx_in) u_in (ravel_pytree dx_out) k)
    ∧ (∀ k, k < cache.dx_size → k ∉ cache.inner_idx →
      (ravel_pytree (step_fn_bwd stepP cache (dx_in, u_in, dx_out) g).1).getD k 0 = 0) := by
  have hun : cache.unravel = unravel_dx dx_ref := by rw [build_fd_cache_some hcache]
  have hin : cache.inner_idx = (inner_idx_list dx_ref tf).flatten := by
    rw [build_fd_cache_some hcache]
  have hds : cache.dx_size = (ravel_pytree dx_ref).length := by
    rw [build_fd_cache_some hcache]
  have hdim : (ravel_pytree dx_in).length = cache.dx_size := by
    rw [hds, ravel_pytree_length, ravel_pytree_length, shapeEq_sizes hshape]
  have hnd : cache.inner_idx.Nodup := by rw [hin]; exact inner_idx_nodup dx_ref tf
  have hb : ∀ k ∈ cache.inner_idx, k < cache.dx_size := by
    intro k hk
    rw [hin] at hk
    rw [hds, ravel_pytree_length]
    exact inner_idx_bound hk
  have ha : ∀ k, k < cache.dx_size → k ∉ cache.inner_idx →
      (Jx_full stepP cache (ravel_pytree dx_in) u_in (ravel_pytree dx_out)).getD k []
        = List.replicate cache.dx_size 0 := by
    intro k hk hkn
    unfold Jx_full
    rw [scatter_rows_getD_not_mem _ _ _ _ hkn, hdim,
      getD_replicate_row _ _ hk]
  refine ⟨ha, ?_, ?_⟩
  · intro k hk
    unfold Jx_full scatter_rows
    exact scatter_rows_getD_mem _ _ _ hnd k hk
      (by rw [List.length_replicate, hdim]; exact hb k hk)
  · intro k hk hkn
    have hrw : (step_fn_bwd stepP cache (dx_in, u_in, dx_out) g).1
        = cache.unravel (matVec
            (Jx_full stepP cache (ravel_pytree dx_in) u_in (ravel_pytree dx_out))
            (ravel_pytree (map_g_to_dinput dx_in g))) := rfl
    have hlen : (matVec
        (Jx_full stepP cache (ravel_pytree dx_in) u_in (ravel_pytree dx_out))
        (ravel_pytree (map_g_to_dinput dx_in g))).length = (leafSizes dx_ref).sum := by
      rw [matVec_length, Jx_full_length, hdim, hds, ravel_pytree_length]
    rw [hrw, hun, ravel_unravel _ _ hlen, matVec_getD _ _ _
        (by rw [Jx_full_length, hdim]; exact hk),
      ha k hk hkn, dotL_replicate_zero]

/-- Witness for C2 at the concrete cache over `exRef`: flat coordinate `2`
(the discrete bookkeeping leaf) is outside `inner_idx = [0, 1, 3]`, its row of
the scattered Jacobian is zero and the returned state gradient vanishes
there. -/
theorem fd_state_gradient_inner_only_witness :
    (2 < exCache.dx_size ∧ 2 ∉ exCache.inner_idx)
    ∧ (Jx_full exStepFn exCache (ravel_pytree exRef) [5] (ravel_pytree (exStepFn exRef [5]))).getD 2 []
        = List.replicate exCache.dx_size 0
    ∧ (ravel_pytree (step_fn_bwd exStepFn exCache (exRef, [5], exStepFn exRef [5]) exG).1).getD 2 0 = 0 := by
  have h := fd_state_gradient_inner_only exStepFn exRef [9] ["qpos", "qvel", "ctrl"] 1
    exCache exRef (exStepFn exRef [5]) [5] exG rfl (by decide)
  exact ⟨⟨by norm_num [exCache], by decide⟩,
    h.1 2 (by norm_num [exCache]) (by decide),
    h.2.2 2 (by norm_num [exCache]) (by decide)⟩

lemma shapeEq_length {a b : List Leaf} (h : ShapeEq a b) : a.length = b.length := by
  have := congrArg List.length h
  simpa using this

lemma shapeEq_getD {a b : List Leaf} (h : ShapeEq a b) {i : ℕ} (hi : i < b.length) :
    (a.getD i default).path = (b.getD i default).path
    ∧ (a.getD i default).vals.length = (b.getD i default).vals.length
    ∧ (a.getD i default).discrete = (b.getD i default).discrete := by
  have hia : i < a.length := (shapeEq_length h) ▸ hi
  have h1 := List.getElem_of_eq h (show i < (a.map _).length by simpa using hia)
  rw [List.getElem_map, List.getElem_map] at h1
  rw [List.getD_eq_getElem _ _ hia, List.getD_eq_getElem _ _ hi]
  exact ⟨congrArg Prod.fst h1, congrArg (fun t => t.2.1) h1, congrArg (fun t => t.2.2) h1⟩

lemma map_g_length (dx g : List Leaf) :
    (map_g_to_dinput dx g).length = min dx.length g.length := by
  unfold map_g_to_dinput
  rw [List.length_zipWith]

lemma map_g_getD (dx g : List Leaf) {i : ℕ} (hi : i < dx.length) (hg : i < g.length) :
    (map_g_to_dinput dx g).getD i default
      = (if (g.getD i default).discrete
          then Leaf.mk (dx.getD i default).path
            (List.replicate (dx.getD i default).vals.length 0) (dx.getD i default).discrete
          else g.getD i default) := by
  have hlen : i < (map_g_to_dinput dx g).length := by
    rw [map_g_length]
    omega
  rw [List.getD_eq_getElem _ _ hlen]
  unfold map_g_to_dinput
  rw [List.getElem_zipWith]
  rw [List.getD_eq_getElem _ _ hi, List.getD_eq_getElem _ _ hg]

lemma shapeEq_map_g {dx g : List Leaf} (h : ShapeEq g dx) :
    ShapeEq (map_g_to_dinput dx g) dx := by
  induction dx generalizing g with
  | nil =>
      have hg := shapeEq_nil h
      subst hg
      rfl
  | cons d dt ih =>
      obtain ⟨a, t, rfl, hpath, hlen, hdisc, htail⟩ := shapeEq_cons h
      show ShapeEq (map_g_to_dinput (d :: dt) (a :: t)) (d :: dt)
      unfold map_g_to_dinput
      rw [List.zipWith_cons_cons]
      by_cases hd : a.discrete = true
      · rw [if_pos hd]
        unfold ShapeEq
        simp only [List.map_cons, List.cons.injEq]
        exact ⟨by simp, ih htail⟩
      · rw [if_neg hd]
        unfold ShapeEq
        simp only [List.map_cons, List.cons.injEq]
        exact ⟨by rw [hpath, hlen, hdisc], ih htail⟩

lemma leaf_ext {x y : Leaf} (h1 : x.path = y.path) (h2 : x.vals = y.vals)
    (h3 : x.discrete = y.discrete) : x = y := by
  cases x
  cases y
  simp_all

lemma ravel_getD_leaf (t : List Leaf) (i k : ℕ) (hi : i < t.length)
    (h1 : leafOffset t i ≤ k) (h2 : k < leafOffset t i + (leafSizes t).getD i 0) :
    (ravel_pytree t).getD k 0 = (t.getD i default).vals.getD (k - leafOffset t i) 0 := by
  induction t generalizing i k with
  | nil => cases hi
  | cons a rest ih =>
      cases i with
      | zero =>
          rw [show leafOffset (a :: rest) 0 = 0 from rfl] at h1 h2 ⊢
          rw [show (leafSizes (a :: rest)).getD 0 0 = a.vals.length from rfl] at h2
          rw [show ravel_pytree (a :: rest) = a.vals ++ ravel_pytree rest from rfl,
            List.getD_append _ _ _ _ (by omega)]
          rfl
      | succ j =>
          have hoff : leafOffset (a :: rest) (j + 1)
              = a.vals.length + leafOffset rest j := by
            simp [leafOffset, leafSizes, List.take_succ_cons]
          have hsz : (leafSizes (a :: rest)).getD (j + 1) 0 = (leafSizes rest).getD j 0 := rfl
          rw [hoff] at h1 h2
          rw [hsz] at h2
          have hj : j < rest.length := by simpa using hi
          rw [show ravel_pytree (a :: rest) = a.vals ++ ravel_pytree rest from rfl,
            List.getD_append_right _ _ _ _ (by omega),
            ih j (k - a.vals.length) hj (by omega) (by omega),
            show (a :: rest).getD (j + 1) default = rest.getD j default from rfl, hoff,
            show k - (a.vals.length + leafOffset rest j)
              = k - a.vals.length - leafOffset rest j from by omega]

/-- Claim C6: in the FD backward pass, every upstream gradient component
associated with a `float0` (integer/discrete) leaf of the state is replaced
by exactly zero before any use — `map_g_to_dinput` turns such leaves into
`jnp.zeros_like(d_leaf)` — so the values stored in discrete gradient leaves
never influence the computed state or control gradients (any two upstream
gradients agreeing on the non-`float0` leaves give identical backward
results), and no error is raised (the fixup is total). -/
theorem float0_gradient_zeroed (stepP : List Leaf → List ℚ → List Leaf) (cache : FDCache)
    (dx_in dx_out : List Leaf) (u_in : List ℚ) (g g' : List Leaf)
    (hg : ShapeEq g dx_in) (hg' : ShapeEq g' dx_in)
    (hagree : ∀ i, i < dx_in.length → (g.getD i default).discrete = false →
        (g.getD i default).vals = (g'.getD i default).vals) :
    (∀ i, i < dx_in.length → (g.getD i default).discrete = true →
      ∀ k, leafOffset dx_in i ≤ k →
        k < leafOffset dx_in i + (leafSizes dx_in).getD i 0 →
        (ravel_pytree (map_g_to_dinput dx_in g)).getD k 0 = 0)
    ∧ map_g_to_dinput dx_in g = map_g_to_dinput dx_in g'
    ∧ step_fn_bwd stepP cache (dx_in, u_in, dx_out) g
        = step_fn_bwd stepP cache (dx_in, u_in, dx_out) g' := by
  have hglen : g.length = dx_in.length := shapeEq_length hg
  have hglen' : g'.length = dx_in.length := shapeEq_length hg'
  have hpart1 : ∀ i, i < dx_in.length → (g.getD i default).discrete = true →
      ∀ k, leafOffset dx_in i ≤ k →
        k < leafOffset dx_in i + (leafSizes dx_in).getD i 0 →
        (ravel_pytree (map_g_to_dinput dx_in g)).getD k 0 = 0 := by
    intro i hi hdisc k hk1 hk2
    have hm : ShapeEq (map_g_to_dinput dx_in g) dx_in := shapeEq_map_g hg
    have hsz : leafSizes (map_g_to_dinput dx_in g) = leafSizes dx_in := shapeEq_sizes hm
    have hoff : leafOffset (map_g_to_dinput dx_in g) i = leafOffset dx_in i := by
      unfold leafOffset
      rw [hsz]
    have hmi : i < (map_g_to_dinput dx_in g).length := by
      rw [shapeEq_length hm]
      exact hi
    rw [ravel_getD_leaf (map_g_to_dinput dx_in g) i k hmi (by rw [hoff]; exact hk1)
        (by rw [hoff, hsz]; exact hk2),
      map_g_getD dx_in g hi (by omega), if_pos hdisc]
    exact getD_replicate_zero _ _
  have hpart2 : map_g_to_dinput dx_in g = map_g_to_dinput dx_in g' := by
    apply List.ext_getElem
    · rw [map_g_length, map_g_length, hglen, hglen']
    · intro i hL hR
      have hi : i < dx_in.length := by
        rw [map_g_length, hglen] at hL
        omega
      have higD : i < g.length := by omega
      have higD' : i < g'.length := by omega
      rw [← List.getD_eq_getElem _ default hL, ← List.getD_eq_getElem _ default hR,
        map_g_getD dx_in g hi higD, map_g_getD dx_in g' hi higD']
      obtain ⟨hp, hv, hd⟩ := shapeEq_getD hg (show i < dx_in.length from hi)
      obtain ⟨hp', hv', hd'⟩ := shapeEq_getD hg' (show i < dx_in.length from hi)
      by_cases hdisc : (g.getD i default).discrete = true
      · rw [if_pos hdisc, if_pos (by rw [hd', ← hd, hdisc])]
      · rw [if_neg hdisc, if_neg (by rw [hd', ← hd]; exact hdisc)]
        refine leaf_ext (by rw [hp, hp']) ?_ (by rw [hd, hd'])
        exact hagree i hi (by simpa using hdisc)
  refine ⟨hpart1, hpart2, ?_⟩
  unfold step_fn_bwd
  dsimp only
  rw [hpart2]

/-- Upstream gradient whose discrete (`float0`) leaf carries the value 7. -/
def exG6 : List Leaf :=
  [Leaf.mk ["qpos"] [1, 2] false, Leaf.mk ["step_count"] [7] true,
    Leaf.mk ["ctrl"] [3] false]

/-- The same upstream gradient with garbage (999) in the discrete leaf. -/
def exG6' : List Leaf :=
  [Leaf.mk ["qpos"] [1, 2] false, Leaf.mk ["step_count"] [999] true,
    Leaf.mk ["ctrl"] [3] false]

/-- Witness for C6: the discrete leaf's flat coordinate is zeroed, and the
garbage value does not change the backward results. -/
theorem float0_gradient_zeroed_witness :
    (ravel_pytree (map_g_to_dinput exRef exG6)).getD 2 0 = 0
    ∧ step_fn_bwd exStepFn exCache (exRef, [5], exStepFn exRef [5]) exG6
        = step_fn_bwd exStepFn exCache (exRef, [5], exStepFn exRef [5]) exG6' := by
  have h := float0_gradient_zeroed exStepFn exCache exRef (exStepFn exRef [5]) [5]
    exG6 exG6' (by decide) (by decide) (by decide)
  exact ⟨h.1 1 (by decide) (by decide) 2 (by decide) (by decide), h.2.2⟩

/-! ### Context construction (`src/contexts/meta_context.py`) -/

lemma posDef_of_eigenvalues_pos {n : ℕ} {A : Matrix (Fin n) (Fin n) ℝ}
    (hA : A.IsHermitian) (h : ∀ i, 0 < hA.eigenvalues i) : A.PosDef := by
  refine ⟨hA, fun x hx => ?_⟩
  have hspec := hA.spectral_theorem
  have hVU : (hA.eigenvectorUnitary : Matrix (Fin n) (Fin n) ℝ)
      * star (hA.eigenvectorUnitary : Matrix (Fin n) (Fin n) ℝ) = 1 :=
    Matrix.mem_unitaryGroup_iff.mp hA.eigenvectorUnitary.2
  have hy0 : Matrix.mulVec (star (hA.eigenvectorUnitary : Matrix (Fin n) (Fin n) ℝ)) x ≠ 0 := by
    intro h0
    apply hx
    have hxy : Matrix.mulVec (hA.eigenvectorUnitary : Matrix (Fin n) (Fin n) ℝ)
        (Matrix.mulVec (star (hA.eigenvectorUnitary : Matrix (Fin n) (Fin n) ℝ)) x) = x := by
      rw [Matrix.mulVec_mulVec, hVU, Matrix.one_mulVec]
    rw [← hxy, h0, Matrix.mulVec_zero]
  have hD : (Matrix.diagonal (RCLike.ofReal ∘ hA.eigenvalues) : Matrix (Fin n) (Fin n) ℝ).PosDef := by
    apply Matrix.PosDef.diagonal
    intro i
    simpa using h i
  have hquad : Matrix.dotProduct (star x) (Matrix.mulVec A x)
      = Matrix.dotProduct
          (star (Matrix.mulVec (star (hA.eigenvectorUnitary : Matrix (Fin n) (Fin n) ℝ)) x))
          (Matrix.mulVec (Matrix.diagonal (RCLike.ofReal ∘ hA.eigenvalues))
            (Matrix.mulVec (star (hA.eigenvectorUnitary : Matrix (Fin n) (Fin n) ℝ)) x)) := by
    conv_lhs => rw [hspec]
    rw [← Matrix.mulVec_mulVec, ← Matrix.mulVec_mulVec, Matrix.dotProduct_mulVec (star x)]
    congr 1
    rw [Matrix.star_mulVec, ← Matrix.star_eq_conjTranspose, star_star]
  rw [hquad]
  exact hD.2 _ hy0

/-- `Context.__init__` stores `cfg` and `cbs` and then runs
`assert jnp.all(jnp.linalg.eigh(self.cfg.R)[0] > 0)`.  For a symmetric real
`R`, `jnp.linalg.eigh(R)[0]` is exactly the family of eigenvalues of `R`
(`hR.eigenvalues` in Mathlib's spectral theorem), so construction succeeds
precisely when every eigenvalue is positive; otherwise the assert raises and
the `Context` is never produced.  Floating-point rounding of LAPACK's `eigh`
is not modelled. -/
def context_init_succeeds {n : ℕ} (R : Matrix (Fin n) (Fin n) ℝ)
    (hR : R.IsHermitian) : Prop :=
  ∀ i, 0 < hR.eigenvalues i

/-- Claim C8: constructing a `Context` whose control-cost weighting matrix
`R` is not positive definite (some eigenvalue of the symmetric `R` is `≤ 0`)
fails at configuration-construction time, and construction with a positive
definite `R` succeeds: the assert passes if and only if `R` is positive
definite, so the system never proceeds with an invalid cost metric. -/
theorem context_posdef_validation {n : ℕ} (R : Matrix (Fin n) (Fin n) ℝ)
    (hR : R.IsHermitian) :
    context_init_succeeds R hR ↔ R.PosDef := by
  constructor
  · exact fun h => posDef_of_eigenvalues_pos hR h
  · intro h i
    exact h.eigenvalues_pos i

/-- Witness for C8: the identity weighting matrix is positive definite and
passes the construction check. -/
theorem context_posdef_validation_witness :
    context_init_succeeds (1 : Matrix (Fin 2) (Fin 2) ℝ) Matrix.isHermitian_one :=
  (context_posdef_validation 1 Matrix.isHermitian_one).mpr Matrix.PosDef.one

/-! ### The batched rollout of `src/diff_sim/simulate.py` (`controlled_simulate`)

The mjx data type, the physics step, the random-key type, and the callbacks
of the `Context` are opaque collaborators: they are collected in `SimCtx`.
`S` stands for `mjx.Data`, `K` for a jax PRNG key. -/

structure SimCtx (S K : Type) where
  /-- `mjx.step mx` : the physics engine step. -/
  engineStep : S → S
  /-- `mjx.make_data mx`. -/
  makeData : S
  /-- `dx.replace(qpos=dx.qpos.at[:].set(x[:mx.nq]), qvel=dx.qvel.at[:].set(x[mx.nq:]))`. -/
  writeInit : S → List ℚ → S
  /-- `jax.random.split key` (returning the new carry key and the subkey). -/
  split : K → K × K
  /-- `ctx.cbs.controller net mx dx subkey`, returning `(dx, u)`. -/
  controller : S → K → S × List ℚ
  /-- `ctx.cbs.control_cost mx dx`. -/
  control_cost : S → ℚ
  /-- `ctx.cbs.run_cost mx dx`. -/
  run_cost : S → ℚ
  /-- `ctx.cbs.terminal_cost mx dx`. -/
  terminal_cost : S → ℚ
  /-- `ctx.cbs.state_encoder mx dx`. -/
  state_encoder : S → List ℚ
  /-- `dx.ctrl`. -/
  ctrl : S → List ℚ
  /-- `dx.time`. -/
  time : S → ℚ
  /-- `ctx.cfg.dt`. -/
  dt : ℚ
  /-- `mx.nu`. -/
  nu : ℕ

/-- `cost_fn(mx, dx) = [control_cost*dt + run_cost*dt]` (as a scalar). -/
def cost_fn {S K : Type} (C : SimCtx S K) (dx : S) : ℚ :=
  C.control_cost dx * C.dt + C.run_cost dx * C.dt

/-- `set_init(x)`: write `qpos`/`qvel` from the flat `x` into a fresh
`make_data` state, then advance it by one engine step. -/
def set_init {S K : Type} (C : SimCtx S K) (x : List ℚ) : S :=
  C.engineStep (C.writeInit C.makeData x)

/-- One body of the scan in `controlled_simulate.step`: split the key, run
the controller, compute the cost of the post-control state, step the physics,
and emit the row `concat [state_encoder dx', dx'.ctrl, [cost], [dx'.time]]`. -/
def sim_step {S K : Type} (C : SimCtx S K) (carry : S × K) : (S × K) × List ℚ :=
  let dx := carry.1
  let key := carry.2
  let key2 := (C.split key).1
  let subkey := (C.split key).2
  let dxc := (C.controller dx subkey).1
  let cost := cost_fn C dxc
  let dx2 := C.engineStep dxc
  ((dx2, key2), C.state_encoder dx2 ++ C.ctrl dx2 ++ [cost] ++ [C.time dx2])

/-- `jax.lax.scan f init length`: iterate `f`, collecting the emitted rows. -/
def lax_scan {C R : Type} (f : C → C × R) : C → ℕ → C × List R
  | c, 0 => (c, [])
  | c, n + 1 =>
      let c' := (f c).1
      let r := (f c).2
      let rest := lax_scan f c' n
      (rest.1, r :: rest.2)

/-- The scan carry before step `k` (so `scan_carry f c 0 = c`). -/
def scan_carry {C R : Type} (f : C → C × R) (c : C) : ℕ → C
  | 0 => c
  | k + 1 => (f (scan_carry f c k)).1

/-- `rollout(x_init)` for a scan of `H` steps (the source passes
`H = ctx.cfg.nsteps - 1`): returns `(x, u, costs, t)` where the trajectory
`x` is `x_init` prefixed to the encoded post-step states, `t` is `dt`
prefixed to the recorded times, and `costs` gets the terminal cost of the
final carry appended. -/
def rollout {S K : Type} (C : SimCtx S K) (H : ℕ) (key : K) (x_init : List ℚ) :
    List (List ℚ) × List (List ℚ) × List ℚ × List ℚ :=
  let start := set_init C x_init
  let fin := (lax_scan (sim_step C) (start, key) H).1
  let res := (lax_scan (sim_step C) (start, key) H).2
  let x := res.map (fun r => r.take (r.length - C.nu - 2))
  let u := res.map (fun r => (r.drop (r.length - C.nu - 2)).take C.nu)
  let costs := res.map (fun r => r.getD (r.length - 2) 0)
  let ts := res.map (fun r => r.getD (r.length - 1) 0)
  (x_init :: x, u, costs ++ [C.terminal_cost fin.1], C.dt :: ts)

/-- `controlled_simulate(x_inits, ctx, net, key)`: the `jax.vmap` of
`rollout` over the batch of initial states (`vmap` computes, for each batch
element, exactly what the unbatched function computes). -/
def controlled_simulate {S K : Type} (C : SimCtx S K) (nsteps : ℕ) (key : K)
    (x_inits : List (List ℚ)) :
    List (List (List ℚ) × List (List ℚ) × List ℚ × List ℚ) :=
  x_inits.map (rollout C (nsteps - 1) key)

lemma lax_scan_fst {C R : Type} (f : C → C × R) (c : C) (n : ℕ) :
    (lax_scan f c n).1 = scan_carry f c n := by
  induction n generalizing c with
  | zero => rfl
  | succ m ih =>
      rw [show (lax_scan f c (m + 1)).1 = (lax_scan f (f c).1 m).1 from rfl, ih]
      clear ih
      induction m with
      | zero => rfl
      | succ j ihj => rw [show scan_carry f c (j + 2) = (f (scan_carry f c (j + 1))).1 from rfl,
          ← ihj, show scan_carry f (f c).1 (j + 1) = (f (scan_carry f (f c).1 j)).1 from rfl]

lemma lax_scan_length {C R : Type} (f : C → C × R) (c : C) (n : ℕ) :
    (lax_scan f c n).2.length = n := by
  induction n generalizing c with
  | zero => rfl
  | succ m ih =>
      rw [show (lax_scan f c (m + 1)).2 = (f c).2 :: (lax_scan f (f c).1 m).2 from rfl]
      rw [List.length_cons, ih]

lemma scan_carry_shift {C R : Type} (f : C → C × R) (c : C) (k : ℕ) :
    scan_carry f c (k + 1) = scan_carry f (f c).1 k := by
  induction k with
  | zero => rfl
  | succ j ih => rw [show scan_carry f c (j + 2) = (f (scan_carry f c (j + 1))).1 from rfl, ih]; rfl

lemma lax_scan_getD {C R : Type} (f : C → C × R) (c : C) (n k : ℕ) (r0 : R)
    (hk : k < n) :
    (lax_scan f c n).2.getD k r0 = (f (scan_carry f c k)).2 := by
  induction n generalizing c k with
  | zero => omega
  | succ m ih =>
      rw [show (lax_scan f c (m + 1)).2 = (f c).2 :: (lax_scan f (f c).1 m).2 from rfl]
      cases k with
      | zero => rfl
      | succ j =>
          rw [List.getD_cons_succ, ih _ j (by omega), scan_carry_shift]

lemma row_assoc (a c : List ℚ) (x y : ℚ) :
    a ++ c ++ [x] ++ [y] = (a ++ c) ++ ([x] ++ [y]) := by
  simp [List.append_assoc]

lemma row_length (a c : List ℚ) (x y : ℚ) :
    (a ++ c ++ [x] ++ [y]).length = a.length + c.length + 2 := by
  simp
  omega

lemma row_cost_extract (a c : List ℚ) (x y : ℚ) :
    (a ++ c ++ [x] ++ [y]).getD ((a ++ c ++ [x] ++ [y]).length - 2) 0 = x := by
  rw [row_length, row_assoc, show a.length + c.length + 2 - 2 = (a ++ c).length from by simp,
    List.getD_append_right _ _ _ _ (le_refl _)]
  simp

lemma row_time_extract (a c : List ℚ) (x y : ℚ) :
    (a ++ c ++ [x] ++ [y]).getD ((a ++ c ++ [x] ++ [y]).length - 1) 0 = y := by
  rw [row_length, row_assoc,
    show a.length + c.length + 2 - 1 = (a ++ c).length + 1 from by simp,
    List.getD_append_right _ _ _ _ (by omega)]
  simp

lemma row_u_extract (a c : List ℚ) (x y : ℚ) (nu : ℕ) (hc : c.length = nu) :
    ((a ++ c ++ [x] ++ [y]).drop ((a ++ c ++ [x] ++ [y]).length - nu - 2)).take nu = c := by
  rw [row_length, show a.length + c.length + 2 - nu - 2 = a.length from by omega,
    show a ++ c ++ [x] ++ [y] = a ++ (c ++ [x] ++ [y]) from by simp,
    List.drop_left, ← hc,
    show c ++ [x] ++ [y] = c ++ ([x] ++ [y]) from by simp,
    List.take_left]

lemma row_x_extract (a c : List ℚ) (x y : ℚ) (nu : ℕ) (hc : c.length = nu) :
    (a ++ c ++ [x] ++ [y]).take ((a ++ c ++ [x] ++ [y]).length - nu - 2) = a := by
  rw [row_length, show a.length + c.length + 2 - nu - 2 = a.length from by omega,
    show a ++ c ++ [x] ++ [y] = a ++ (c ++ [x] ++ [y]) from by simp,
    List.take_left]

/-- Claim C3: for every rollout with horizon `H` (the scan length; the source
runs the scan with `length = ctx.cfg.nsteps - 1`), the returned cost sequence
contains exactly `H` running-cost entries — entry `k` is the
`(control_cost + run_cost) * dt` of step `k`'s post-controller state — plus
exactly one terminal-cost entry appended at the end, so the total returned
cost count is `H + 1`. -/
theorem rollout_cost_count {S K : Type} (C : SimCtx S K) (H : ℕ) (key : K)
    (x_init : List ℚ) :
    (rollout C H key x_init).2.2.1.length = H + 1
    ∧ (rollout C H key x_init).2.2.1.getD H 0
        = C.terminal_cost (scan_carry (sim_step C) (set_init C x_init, key) H).1
    ∧ (∀ k, k < H → (rollout C H key x_init).2.2.1.getD k 0
        = cost_fn C (C.controller (scan_carry (sim_step C) (set_init C x_init, key) k).1
            ((C.split (scan_carry (sim_step C) (set_init C x_init, key) k).2).2)).1) := by
  have hres : (rollout C H key x_init).2.2.1
      = ((lax_scan (sim_step C) (set_init C x_init, key) H).2.map
          (fun r => r.getD (r.length - 2) 0))
        ++ [C.terminal_cost (lax_scan (sim_step C) (set_init C x_init, key) H).1.1] := rfl
  have hmaplen : ((lax_scan (sim_step C) (set_init C x_init, key) H).2.map
      (fun r => r.getD (r.length - 2) 0)).length = H := by
    rw [List.length_map, lax_scan_length]
  refine ⟨?_, ?_, ?_⟩
  · rw [hres, List.length_append, hmaplen]
    rfl
  · rw [hres, List.getD_append_right _ _ _ _ (by omega), hmaplen, lax_scan_fst]
    simp
  · intro k hk
    rw [hres, List.getD_append _ _ _ _ (by omega),
      List.getD_eq_getElem _ _ (by rw [hmaplen]; exact hk), List.getElem_map,
      ← List.getD_eq_getElem _ [] (by rw [lax_scan_length]; exact hk),
      lax_scan_getD _ _ _ _ _ hk,
      show (sim_step C (scan_carry (sim_step C) (set_init C x_init, key) k)).2
        = C.state_encoder (C.engineStep (C.controller
              (scan_carry (sim_step C) (set_init C x_init, key) k).1
              ((C.split (scan_carry (sim_step C) (set_init C x_init, key) k).2).2)).1)
          ++ C.ctrl (C.engineStep (C.controller
              (scan_carry (sim_step C) (set_init C x_init, key) k).1
              ((C.split (scan_carry (sim_step C) (set_init C x_init, key) k).2).2)).1)
          ++ [cost_fn C (C.controller
              (scan_carry (sim_step C) (set_init C x_init, key) k).1
              ((C.split (scan_carry (sim_step C) (set_init C x_init, key) k).2).2)).1]
          ++ [C.time (C.engineStep (C.controller
              (scan_carry (sim_step C) (set_init C x_init, key) k).1
              ((C.split (scan_carry (sim_step C) (set_init C x_init, key) k).2).2)).1)]
        from rfl,
      row_cost_extract]

/-- Claim C9: batch elements of a rollout do not interact.  `vmap` computes
each batch element independently from its own initial state (all elements
share the same read-only context and the same key), so two batches that agree
at every position other than `b` produce rollouts that agree at every
position other than `b` — trajectories, controls, costs and times alike. -/
theorem batch_independence {S K : Type} (C : SimCtx S K) (nsteps : ℕ) (key : K)
    (inits inits' : List (List ℚ)) (b : ℕ)
    (hagree : ∀ j, j ≠ b → inits[j]? = inits'[j]?) :
    ∀ j, j ≠ b → (controlled_simulate C nsteps key inits)[j]?
      = (controlled_simulate C nsteps key inits')[j]? := by
  intro j hj
  unfold controlled_simulate
  rw [List.getElem?_map, List.getElem?_map, hagree j hj]

/-- A concrete rollout context for witnesses: a state is
`(position, time, ctrl)`, the engine step moves the position and time forward
by one and keeps `ctrl`, and the controller writes the position into `ctrl`
and returns it as the control. -/
def exCtx : SimCtx (ℚ × ℚ × ℚ) Unit :=
  SimCtx.mk
    (fun s => (s.1 + 1, s.2.1 + 1, s.2.2))
    (0, 0, 0)
    (fun _ x => (x.getD 0 0, 0, 0))
    (fun k => (k, k))
    (fun s _ => ((s.1, s.2.1, s.1), [s.1]))
    (fun _ => 0)
    (fun s => s.1)
    (fun s => s.1 * 10)
    (fun s => [s.1])
    (fun s => [s.2.2])
    (fun s => s.2.1)
    1 1

/-- Witness for C9: changing batch element 0 leaves batch element 1's whole
output unchanged. -/
theorem batch_independence_witness :
    (controlled_simulate exCtx 3 () [[1], [2]])[1]?
      = (controlled_simulate exCtx 3 () [[9], [2]])[1]? := by
  refine batch_independence exCtx 3 () [[1], [2]] [[9], [2]] 0 ?_ 1 (by omega)
  intro j hj
  rcases j with _ | _ | n
  · exact absurd rfl hj
  · rfl
  · rw [List.getElem?_eq_none (by simp), List.getElem?_eq_none (by simp)]

/-- The rollout's internal physics state entering scan step `k`
(`traj_state 0` is `set_init x_init`, the initial state already advanced by
one engine step). -/
def traj_state {S K : Type} (C : SimCtx S K) (key : K) (x_init : List ℚ) (k : ℕ) : S :=
  (scan_carry (sim_step C) (set_init C x_init, key) k).1

/-- The PRNG key entering scan step `k`. -/
def traj_key {S K : Type} (C : SimCtx S K) (key : K) (x_init : List ℚ) (k : ℕ) : K :=
  (scan_carry (sim_step C) (set_init C x_init, key) k).2

/-- Counterexample for C10.  In the rollout of `exCtx` from `x_init = [5]`
with two scan steps, at index 1 the recorded control `[7]` is the controller
output at exactly the internal state whose encoding `[7]` is recorded at
index 1 — not at a state one physics step ahead of it, whose controller
output would be `[8]`.  The claimed off-by-one alignment therefore holds only
at index 0, not "at index t" for every `t`. -/
theorem rollout_alignment_counterexample :
    (rollout exCtx 2 () [5]).2.1.getD 1 [] = [7]
    ∧ (rollout exCtx 2 () [5]).1.getD 1 [] = exCtx.state_encoder (traj_state exCtx () [5] 1)
    ∧ exCtx.state_encoder (traj_state exCtx () [5] 1) = [7]
    ∧ (exCtx.controller (traj_state exCtx () [5] 1) ()).2 = [7]
    ∧ (exCtx.controller (exCtx.engineStep (traj_state exCtx () [5] 1)) ()).2 = [8]
    ∧ ([7] : List ℚ) ≠ [8] := by
  refine ⟨?_, ?_, ?_, ?_, ?_, by norm_num⟩ <;>
    norm_num [rollout, lax_scan, sim_step, set_init, traj_state, scan_carry, exCtx, cost_fn]

lemma sim_step_row {S K : Type} (C : SimCtx S K) (c : S × K) :
    (sim_step C c).2
      = C.state_encoder (C.engineStep (C.controller c.1 ((C.split c.2).2)).1)
        ++ C.ctrl (C.engineStep (C.controller c.1 ((C.split c.2).2)).1)
        ++ [cost_fn C (C.controller c.1 ((C.split c.2).2)).1]
        ++ [C.time (C.engineStep (C.controller c.1 ((C.split c.2).2)).1)] := rfl

/-- Amended C10: the first entry of the state trajectory returned by
`controlled_simulate` is the caller's raw `x_init` verbatim, and the
rollout's internal starting state is `x_init` already advanced by one physics
step (`set_init` calls the engine step after writing `qpos`/`qvel`); hence at
index 0 the recorded control, cost and time come from a state one physics
step ahead of the recorded raw `x_init`.  At every index `t ≥ 1`, however,
the recorded control and cost are computed from exactly the internal state
whose encoding is recorded at index `t` (not one step ahead of it), and the
recorded time is that same state's time.  (Hypotheses: the engine step
preserves `ctrl`, the controller writes its returned control into `ctrl`,
and `ctrl` always has length `nu` — all true of mjx and the repository's
controllers.) -/
theorem rollout_alignment_amended {S K : Type} (C : SimCtx S K) (H : ℕ) (key : K)
    (x_init : List ℚ)
    (hstep : ∀ s, C.ctrl (C.engineStep s) = C.ctrl s)
    (hset : ∀ s k, C.ctrl (C.controller s k).1 = (C.controller s k).2)
    (hlen : ∀ s, (C.ctrl s).length = C.nu) :
    (rollout C H key x_init).1.getD 0 [] = x_init
    ∧ traj_state C key x_init 0 = C.engineStep (C.writeInit C.makeData x_init)
    ∧ (∀ k, k < H → (rollout C H key x_init).2.1.getD k []
        = (C.controller (traj_state C key x_init k)
            ((C.split (traj_key C key x_init k)).2)).2)
    ∧ (∀ k, k < H → (rollout C H key x_init).2.2.1.getD k 0
        = cost_fn C (C.controller (traj_state C key x_init k)
            ((C.split (traj_key C key x_init k)).2)).1)
    ∧ (∀ k, 1 ≤ k → k ≤ H → (rollout C H key x_init).1.getD k []
        = C.state_encoder (traj_state C key x_init k))
    ∧ (∀ k, 1 ≤ k → k ≤ H → (rollout C H key x_init).2.2.2.getD k 0
        = C.time (traj_state C key x_init k))
    ∧ (rollout C H key x_init).2.2.2.getD 0 0 = C.dt := by
  refine ⟨rfl, rfl, ?_, ?_, ?_, ?_, rfl⟩
  · intro k hk
    have h1 : (rollout C H key x_init).2.1
        = (lax_scan (sim_step C) (set_init C x_init, key) H).2.map
            (fun r => (r.drop (r.length - C.nu - 2)).take C.nu) := rfl
    rw [h1, List.getD_eq_getElem _ _ (by rw [List.length_map, lax_scan_length]; exact hk),
      List.getElem_map, ← List.getD_eq_getElem _ [] (by rw [lax_scan_length]; exact hk),
      lax_scan_getD _ _ _ _ _ hk, sim_step_row, row_u_extract _ _ _ _ _ (hlen _),
      hstep, hset]
    rfl
  · intro k hk
    have h1 : (rollout C H key x_init).2.2.1
        = (lax_scan (sim_step C) (set_init C x_init, key) H).2.map
            (fun r => r.getD (r.length - 2) 0)
          ++ [C.terminal_cost (lax_scan (sim_step C) (set_init C x_init, key) H).1.1] := rfl
    rw [h1, List.getD_append _ _ _ _ (by rw [List.length_map, lax_scan_length]; exact hk),
      List.getD_eq_getElem _ _ (by rw [List.length_map, lax_scan_length]; exact hk),
      List.getElem_map, ← List.getD_eq_getElem _ [] (by rw [lax_scan_length]; exact hk),
      lax_scan_getD _ _ _ _ _ hk, sim_step_row, row_cost_extract]
    rfl
  · intro k hk1 hk2
    obtain ⟨j, rfl⟩ : ∃ j, k = j + 1 := ⟨k - 1, by omega⟩
    have h1 : (rollout C H key x_init).1
        = x_init :: (lax_scan (sim_step C) (set_init C x_init, key) H).2.map
            (fun r => r.take (r.length - C.nu - 2)) := rfl
    rw [h1, List.getD_cons_succ,
      List.getD_eq_getElem _ _ (by rw [List.length_map, lax_scan_length]; omega),
      List.getElem_map, ← List.getD_eq_getElem _ [] (by rw [lax_scan_length]; omega),
      lax_scan_getD _ _ _ _ _ (by omega), sim_step_row, row_x_extract _ _ _ _ _ (hlen _)]
    rfl
  · intro k hk1 hk2
    obtain ⟨j, rfl⟩ : ∃ j, k = j + 1 := ⟨k - 1, by omega⟩
    have h1 : (rollout C H key x_init).2.2.2
        = C.dt :: (lax_scan (sim_step C) (set_init C x_init, key) H).2.map
            (fun r => r.getD (r.length - 1) 0) := rfl
    rw [h1, List.getD_cons_succ,
      List.getD_eq_getElem _ _ (by rw [List.length_map, lax_scan_length]; omega),
      List.getElem_map, ← List.getD_eq_getElem _ [] (by rw [lax_scan_length]; omega),
      lax_scan_getD _ _ _ _ _ (by omega), sim_step_row, row_time_extract]
    rfl

/-- Witness for the amended C10 at the concrete context: at index 1 the
recorded control comes from exactly the internal state recorded at index 1. -/
theorem rollout_alignment_amended_witness :
    (rollout exCtx 2 () [5]).2.1.getD 1 []
      = (exCtx.controller (traj_state exCtx () [5] 1)
          ((exCtx.split (traj_key exCtx () [5] 1)).2)).2 :=
  (rollout_alignment_amended exCtx 2 () [5] (fun s => rfl) (fun s k => rfl)
    (fun s => rfl)).2.2.1 1 (by omega)
